import Mathlib

/-!
# Verification of the `httpgovernor` admission-control package

A shallow embedding of the package's two components:

* the `PatternCostEstimator` (file `patternestimator.go`): pattern
  registration (`SetCost`), host/path matching (`EstimateCost`, `match`,
  `stripPort`, `addPrefix`), together with a model of the Go standard
  library's lexical path cleaner `path.Clean`, an external dependency of
  the source;
* the admission governor (file `governor.go`): the per-request control
  flow of `simpleGovernor.ServeHTTP` and `governor.ServeHTTP` as pure
  trace-computing functions, and the concurrent two-tier behaviour as a
  labelled transition system whose permit accounting follows the
  `golang.org/x/sync/semaphore` weighted-semaphore semantics
  (`TryAcquire` succeeds iff the weight fits and no waiter is queued;
  blocking `Acquire` grants waiters in FIFO order).

Go strings are modelled as Lean `String`s viewed through their `List Char`
data; Go `int64` costs are modelled as `Int` in the estimator and, in the
governor models, as `Nat` (the `CostEstimator` contract requires a
non-negative cost).
-/

namespace Httpgovernor

/-! ## String helpers (models of the `strings` package functions used) -/

/-- Model of Go `strings.HasPrefix(s, pre)` at the character-list level. -/
def isPreOf : List Char → List Char → Bool
  | [], _ => true
  | _ :: _, [] => false
  | a :: as, b :: bs => a = b && isPreOf as bs

/-- Model of Go `strings.HasSuffix(s, suf)` at the character-list level. -/
def isSufOf (a b : List Char) : Bool := isPreOf a.reverse b.reverse

/-- Go `strings.HasPrefix(s, pre)`. -/
def hasPrefixStr (s pre : String) : Bool := isPreOf pre.data s.data

/-- Go `strings.HasSuffix(s, suf)`. -/
def hasSuffixStr (s suf : String) : Bool := isSufOf suf.data s.data

/-- Model of Go `strings.LastIndexByte`: index of the last occurrence of
`c`, or `none` when absent. -/
def lastIndexByte : List Char → Char → Option Nat
  | [], _ => none
  | x :: rest, c =>
    match lastIndexByte rest c with
    | some n => some (n + 1)
    | none => if x = c then some 0 else none

/-- Model of Go `strings.Index(s, "/")`: index of the first `'/'`. -/
def indexOfSlash : List Char → Option Nat
  | [] => none
  | c :: rest => if c = '/' then some 0 else (indexOfSlash rest).map (· + 1)

/-! ## `path.Clean`

Modelled from the Go standard library's `path.Clean` (an external
dependency of the source, used by `EstimateCost` and `SetCost`): a purely
lexical cleaner that collapses repeated separators, eliminates `.`
elements, resolves `..` elements against preceding elements (dropping
them at the root of a rooted path, keeping them at the front of a
relative path), and returns `"."` for an empty result. -/

/-- Split a character list on `'/'`, keeping empty segments. -/
def splitOnSlash : List Char → List (List Char)
  | [] => [[]]
  | c :: rest =>
    match splitOnSlash rest with
    | [] => [[c]]
    | h :: t => if c = '/' then [] :: h :: t else (c :: h) :: t

/-- Process path segments with a backtracking stack, as `path.Clean`
does: drop empty and `.` segments, resolve `..` against the stack. -/
def cleanSegments (rooted : Bool) (acc : List (List Char)) :
    List (List Char) → List (List Char)
  | [] => acc.reverse
  | seg :: rest =>
    if seg = [] ∨ seg = ['.'] then cleanSegments rooted acc rest
    else if seg = ['.', '.'] then
      match acc with
      | [] =>
        if rooted then cleanSegments rooted [] rest
        else cleanSegments rooted [['.', '.']] rest
      | top :: t =>
        if rooted = false ∧ top = ['.', '.'] then
          cleanSegments rooted (seg :: acc) rest
        else cleanSegments rooted t rest
    else cleanSegments rooted (seg :: acc) rest

/-- Join segments with `'/'`. -/
def joinSlash : List (List Char) → List Char
  | [] => []
  | [s] => s
  | s :: rest => s ++ '/' :: joinSlash rest

/-- Go `path.Clean`. -/
def pathClean (p : String) : String :=
  match p.data with
  | [] => "."
  | c :: rest =>
    let segs := cleanSegments (c = '/') [] (splitOnSlash (c :: rest))
    if c = '/' then ⟨'/' :: joinSlash segs⟩
    else if segs = [] then "." else ⟨joinSlash segs⟩

/-! ## The pattern cost estimator (`patternestimator.go`) -/

/-- An inbound HTTP request, reduced to the two fields the estimator
reads: `req.Host` and `req.URL.Path`. -/
structure Request where
  host : String
  urlPath : String

/-- The `PatternCostEstimator` state. The Go `map[string]int64` `costs`
is modelled as an association list with overwrite-on-insert; the `mu`
lock is concurrency plumbing with no sequential content. -/
structure PatternCostEstimator where
  costs : List (String × Int) := []
  prefixes : List String := []
  hasHost : Bool := false

/-- Lookup in the modelled Go map (`v, ok := m[k]` with `ok`). -/
def findCost : List (String × Int) → String → Option Int
  | [], _ => none
  | (k, v) :: rest, key => if k = key then some v else findCost rest key

/-- Overwriting insert in the modelled Go map (`m[k] = v`). -/
def mapInsert : List (String × Int) → String → Int → List (String × Int)
  | [], k, v => [(k, v)]
  | (k', v') :: rest, k, v =>
    if k' = k then (k, v) :: rest else (k', v') :: mapInsert rest k v

/-- The prefix-scanning loop of `PatternCostEstimator.match`: return the
cost of the first registered prefix the candidate key starts with.  The
Go loop reads `c.costs[prefix]` with map-zero-value semantics, hence the
`getD 0`. -/
def scanPrefixCosts (costs : List (String × Int)) :
    List String → String → Option Int
  | [], _ => none
  | p :: rest, path =>
    if hasPrefixStr path p then some ((findCost costs p).getD 0)
    else scanPrefixCosts costs rest path

/-- Embeds `PatternCostEstimator.match` (renamed: `match` is reserved in
Lean): exact lookup first, then the longest-first prefix scan, then the
default cost 1 with `ok = false`. -/
def PatternCostEstimator.matchCost (c : PatternCostEstimator)
    (path : String) : Int × Bool :=
  match findCost c.costs path with
  | some cost => (cost, true)
  | none =>
    match scanPrefixCosts c.costs c.prefixes path with
    | some cost => (cost, true)
    | none => (1, false)

/-- Embeds `stripPort`: remove a trailing `:port` from the request host,
except that a bracketed IPv6 literal whose last colon is inside the
brackets is returned unchanged. -/
def stripPort (hostport : String) : String :=
  match lastIndexByte hostport.data ':' with
  | none => hostport
  | some n =>
    if hostport.data.head? = some '[' ∧ hostport.data[n - 1]? ≠ some ']'
    then hostport
    else ⟨hostport.data.take n⟩

/-- Embeds `PatternCostEstimator.EstimateCost`. -/
def PatternCostEstimator.EstimateCost (c : PatternCostEstimator)
    (req : Request) : Int :=
  let path := pathClean req.urlPath
  if c.hasHost then
    let host := stripPort req.host
    let r := c.matchCost (host ++ path)
    if r.2 then r.1 else (c.matchCost path).1
  else (c.matchCost path).1

/-- Embeds `PatternCostEstimator.addPrefix` (insertion into the
longest-first sorted list, de-duplicated by string equality): the Go
index loop becomes structural recursion. -/
def addPrefixEntry : List String → String → List String
  | [], pre => [pre]
  | p :: rest, pre =>
    if p = pre then p :: rest
    else if p.length < pre.length then pre :: p :: rest
    else p :: addPrefixEntry rest pre

/-- The host/path split at the head of `SetCost`: the `switch` on
`strings.Index(path, "/")` — no `'/'` at all makes the whole pattern the
host with path `"/"`. -/
def splitHostPath (path : String) : String × String :=
  match indexOfSlash path.data with
  | none => (path, "/")
  | some 0 => ("", path)
  | some n => (⟨path.data.take n⟩, ⟨path.data.drop n⟩)

/-- The key-normalisation part of `SetCost`: the registered key
`host ++ cleanedPath` (a cleaned-away trailing `'/'` re-appended), and
whether the pattern denotes a subtree. -/
def cleanedPatternKey (path : String) : String × Bool :=
  let hp := splitHostPath path
  let pre := hasSuffixStr hp.2 "/"
  let path1 := pathClean hp.2
  let path2 := if pre ∧ hasSuffixStr path1 "/" = false then path1 ++ "/" else path1
  (hp.1 ++ path2, pre)

/-- Embeds `PatternCostEstimator.SetCost`: split the pattern at the
first `'/'` into host and path, record whether the path denotes a
subtree (trailing `'/'`), clean the path, and register the combined
key — as a prefix entry as well when it denotes a subtree. -/
def PatternCostEstimator.SetCost (c : PatternCostEstimator)
    (path : String) (cost : Int) : PatternCostEstimator :=
  let host := (splitHostPath path).1
  let kp := cleanedPatternKey path
  { costs := mapInsert c.costs kp.1 cost
    prefixes := if kp.2 then addPrefixEntry c.prefixes kp.1 else c.prefixes
    hasHost := if host = "" then c.hasHost else true }

/-! ## The admission governor (`governor.go`)

Per-request control flow, embedded as pure functions computing a trace of
the externally visible calls a single `ServeHTTP` invocation makes.  The
weighted-semaphore state is summarised by its held weight `cur` (and, for
the pool that supports blocking acquisition, whether any waiter is
queued): `TryAcquire(cost)` succeeds iff `cur + cost ≤ size` and no
waiter is queued.  The outcome of the blocking `Acquire` in
`governor.queue` — granted before the deadline, or timeout/cancellation —
depends on other tasks and real time, so it enters the embedding as the
oracle parameter `queueGranted`; the transition system below constrains
when a grant is actually possible. -/

/-- Trace of one `simpleGovernor.ServeHTTP` call: how many times the
wrapped handler and the overload handler were invoked, how many times
the overload counter was incremented, and how many acquire/release
operations were performed on the sole semaphore. -/
structure SimpleTrace where
  mainCalls : Nat := 0
  overloadCalls : Nat := 0
  overloadIncs : Nat := 0
  semAcquires : Nat := 0
  semReleases : Nat := 0
deriving Repr, DecidableEq

/-- Embeds `simpleGovernor.ServeHTTP` for a request of estimated cost
`cost`, with the semaphore of size `maxConcurrency` currently holding
weight `cur`; `hasCounter` records whether `RequestOverloadCounter` is
configured (non-nil). -/
def simpleGovernorServe (maxConcurrency cur cost : Nat)
    (hasCounter : Bool) : SimpleTrace :=
  if cost = 0 then { mainCalls := 1 }
  else if cur + cost ≤ maxConcurrency then
    { mainCalls := 1, semAcquires := 1, semReleases := 1 }
  else
    { overloadCalls := 1, overloadIncs := if hasCounter then 1 else 0 }

/-- Trace of one two-tier `governor.ServeHTTP` call. -/
structure GovTrace where
  mainCalls : Nat := 0
  overloadCalls : Nat := 0
  overloadIncs : Nat := 0
  gaugeIncs : Nat := 0
  gaugeDecs : Nat := 0
  observeCalls : Nat := 0
  burstAcquires : Nat := 0
  burstReleases : Nat := 0
  concAcquires : Nat := 0
  concReleases : Nat := 0
deriving Repr, DecidableEq

/-- Embeds the two-tier `governor.ServeHTTP` (with `governor.queue` and
`governor.overload` inlined) for a request of cost `cost`.  `burstCur`
and `concCur` are the weights currently held from the burst and
concurrent pools; `concWaiters` is whether the concurrent pool has
queued waiters (the burst pool never has waiters: it is only ever
`TryAcquire`d); `queueGranted` is the oracle for the blocking acquire's
outcome. -/
def governorServe (maxConcurrency maxBurst burstCur concCur : Nat)
    (concWaiters : Bool) (queueGranted : Bool) (cost : Nat)
    (hasCounter hasGauge hasObserver : Bool) : GovTrace :=
  if cost = 0 then { mainCalls := 1 }
  else if burstCur + cost ≤ maxBurst then
    if concWaiters = false ∧ concCur + cost ≤ maxConcurrency then
      { mainCalls := 1, burstAcquires := 1, burstReleases := 1,
        concAcquires := 1, concReleases := 1 }
    else if queueGranted then
      { mainCalls := 1,
        gaugeIncs := if hasGauge then 1 else 0,
        gaugeDecs := if hasGauge then 1 else 0,
        observeCalls := if hasObserver then 1 else 0,
        burstAcquires := 1, burstReleases := 1,
        concAcquires := 1, concReleases := 1 }
    else
      { overloadCalls := 1, overloadIncs := if hasCounter then 1 else 0,
        gaugeIncs := if hasGauge then 1 else 0,
        gaugeDecs := if hasGauge then 1 else 0,
        burstAcquires := 1, burstReleases := 1 }
  else
    { overloadCalls := 1, overloadIncs := if hasCounter then 1 else 0 }

/-! ## Two-tier governor as a transition system

A state records the costs of the requests currently in flight (holding
weight from both pools) and currently queued, in FIFO order (holding
weight from the burst pool only, waiting on the concurrent pool).  The
held weights of the semaphores are therefore `concurrent.cur =
inflight.sum` and `burst.cur = inflight.sum + queued.sum`.  Transitions
follow `governor.ServeHTTP` and the weighted-semaphore semantics:

* a positive-cost arrival is rejected when it does not fit in the burst
  pool; otherwise it is admitted immediately when the concurrent pool
  has no waiters and the cost fits, and queued otherwise;
* the concurrent pool grants its front waiter (FIFO) once the waiter's
  cost fits;
* any queued request may time out or be cancelled, releasing its burst
  weight;
* any in-flight request may complete, releasing both weights. -/

/-- Costs of in-flight and queued requests of a two-tier governor. -/
structure GovState where
  inflight : List Nat
  queued : List Nat
deriving Repr, DecidableEq

/-- One observable event of the two-tier governor. -/
inductive GovEvent where
  | arriveAdmit (c : Nat)
  | arriveQueue (c : Nat)
  | arriveReject (c : Nat)
  | grant (c : Nat)
  | timeout (i : Nat)
  | complete (i : Nat)
deriving Repr, DecidableEq

/-- The labelled step relation of a two-tier governor with
`MaxConcurrency = C` and `MaxBurst = B`. -/
inductive GovStep (C B : Nat) : GovState → GovEvent → GovState → Prop where
  | arriveAdmit {s : GovState} {c : Nat} (hc : 0 < c)
      (hburst : s.inflight.sum + s.queued.sum + c ≤ B)
      (hnowait : s.queued = [])
      (hconc : s.inflight.sum + c ≤ C) :
      GovStep C B s (.arriveAdmit c) ⟨c :: s.inflight, s.queued⟩
  | arriveQueue {s : GovState} {c : Nat} (hc : 0 < c)
      (hburst : s.inflight.sum + s.queued.sum + c ≤ B)
      (hfail : ¬(s.queued = [] ∧ s.inflight.sum + c ≤ C)) :
      GovStep C B s (.arriveQueue c) ⟨s.inflight, s.queued ++ [c]⟩
  | arriveReject {s : GovState} {c : Nat} (hc : 0 < c)
      (hburst : ¬(s.inflight.sum + s.queued.sum + c ≤ B)) :
      GovStep C B s (.arriveReject c) s
  | grant {s : GovState} {c : Nat} {rest : List Nat}
      (hq : s.queued = c :: rest)
      (hconc : s.inflight.sum + c ≤ C) :
      GovStep C B s (.grant c) ⟨c :: s.inflight, rest⟩
  | timeout {s : GovState} {i : Nat} (hi : i < s.queued.length) :
      GovStep C B s (.timeout i) ⟨s.inflight, s.queued.eraseIdx i⟩
  | complete {s : GovState} {i : Nat} (hi : i < s.inflight.length) :
      GovStep C B s (.complete i) ⟨s.inflight.eraseIdx i, s.queued⟩

/-- States reachable from the idle governor under any sequence of
arrivals, grants, timeouts and completions. -/
inductive GovReachable (C B : Nat) : GovState → Prop where
  | init : GovReachable C B ⟨[], []⟩
  | step {s : GovState} {e : GovEvent} {s' : GovState} :
      GovReachable C B s → GovStep C B s e s' → GovReachable C B s'

/-- Applying a whole configuration sequence of `SetCost` calls to the
zero-value estimator. -/
def applySetCosts (ops : List (String × Int)) : PatternCostEstimator :=
  ops.foldl (fun e op => e.SetCost op.1 op.2) {}

/-- The estimator of the whole-attempt-fallback scenario: a
host-qualified subtree registration plus a host-less exact
registration. -/
def estimatorHostExact : PatternCostEstimator :=
  ((({} : PatternCostEstimator).SetCost "h/api/" 5).SetCost "/x" 3)

/-- The estimator of the longest-prefix scenario: `/free`→0, `/api/`→5,
`/api/calls/`→7. -/
def estimatorLongest : PatternCostEstimator :=
  ((({} : PatternCostEstimator).SetCost "/free" 0).SetCost
    "/api/" 5).SetCost "/api/calls/" 7

/-- The pattern-table invariant maintained by `SetCost`: the prefix list
is sorted longest-first, duplicate-free, and each of its entries is a
key of the exact-match cost map. -/
def EstimatorInv (e : PatternCostEstimator) : Prop :=
  e.prefixes.Pairwise (fun a b => b.length ≤ a.length) ∧
  e.prefixes.Nodup ∧
  ∀ p ∈ e.prefixes, (findCost e.costs p).isSome

/-! ## Helper lemmas -/

theorem isPreOf_append (l t : List Char) : isPreOf l (l ++ t) = true := by
  induction l with
  | nil => rfl
  | cons a as ih => simp [isPreOf, ih]

theorem sum_eraseIdx_le (l : List Nat) (i : Nat) :
    (l.eraseIdx i).sum ≤ l.sum := by
  induction l generalizing i with
  | nil => simp
  | cons a l ih =>
    cases i with
    | zero => simp [List.eraseIdx]
    | succ i =>
      simp only [List.eraseIdx, List.sum_cons]
      exact Nat.add_le_add_left (ih i) a

theorem findCost_mapInsert (k : String) (v : Int) (q : String)
    (m : List (String × Int)) :
    findCost (mapInsert m k v) q = if k = q then some v else findCost m q := by
  induction m with
  | nil => simp [mapInsert, findCost]
  | cons kv rest ih =>
    obtain ⟨k', v'⟩ := kv
    simp only [mapInsert]
    by_cases hk : k' = k
    · subst hk
      by_cases h : k' = q <;> simp [findCost, h]
    · by_cases h1 : k' = q
      · subst h1
        have : ¬ k = k' := fun h => hk h.symm
        simp [findCost, hk, this, ih]
      · simp [findCost, hk, h1, ih]

theorem isSome_findCost_mapInsert {m : List (String × Int)} {q k : String}
    {v : Int} (h : (findCost m q).isSome) :
    (findCost (mapInsert m k v) q).isSome := by
  rw [findCost_mapInsert]
  split
  · simp
  · exact h

theorem mem_addPrefixEntry {x q : String} :
    ∀ {l : List String}, q ∈ addPrefixEntry l x → q ∈ l ∨ q = x := by
  intro l
  induction l with
  | nil =>
    intro h
    simp only [addPrefixEntry, List.mem_singleton] at h
    exact Or.inr h
  | cons p rest ih =>
    intro h
    simp only [addPrefixEntry] at h
    split at h
    · exact Or.inl h
    · split at h
      · rcases List.mem_cons.mp h with h1 | h1
        · exact Or.inr h1
        · exact Or.inl h1
      · rcases List.mem_cons.mp h with h1 | h1
        · exact Or.inl (h1 ▸ List.mem_cons_self p rest)
        · rcases ih h1 with h2 | h2
          · exact Or.inl (List.mem_cons_of_mem _ h2)
          · exact Or.inr h2

theorem pairwise_addPrefixEntry {x : String} :
    ∀ {l : List String}, l.Pairwise (fun a b => b.length ≤ a.length) →
    (addPrefixEntry l x).Pairwise (fun a b => b.length ≤ a.length) := by
  intro l
  induction l with
  | nil => intro _; simp [addPrefixEntry]
  | cons p rest ih =>
    intro h
    rw [List.pairwise_cons] at h
    obtain ⟨hp, hrest⟩ := h
    simp only [addPrefixEntry]
    split
    · exact List.pairwise_cons.mpr ⟨hp, hrest⟩
    · split
      · rename_i hne hlt
        refine List.pairwise_cons.mpr ⟨?_, List.pairwise_cons.mpr ⟨hp, hrest⟩⟩
        intro b hb
        rcases List.mem_cons.mp hb with h1 | h1
        · exact h1 ▸ Nat.le_of_lt hlt
        · exact le_trans (hp b h1) (Nat.le_of_lt hlt)
      · rename_i hne hnlt
        refine List.pairwise_cons.mpr ⟨?_, ih hrest⟩
        intro b hb
        rcases mem_addPrefixEntry hb with h1 | h1
        · exact hp b h1
        · exact h1 ▸ Nat.le_of_not_lt hnlt

theorem nodup_addPrefixEntry {x : String} :
    ∀ {l : List String}, l.Pairwise (fun a b => b.length ≤ a.length) →
    l.Nodup → (addPrefixEntry l x).Nodup := by
  intro l
  induction l with
  | nil => intro _ _; simp [addPrefixEntry]
  | cons p rest ih =>
    intro hs hn
    rw [List.pairwise_cons] at hs
    obtain ⟨hple, hsrest⟩ := hs
    rw [List.nodup_cons] at hn
    obtain ⟨hpmem, hnrest⟩ := hn
    simp only [addPrefixEntry]
    split
    · exact List.nodup_cons.mpr ⟨hpmem, hnrest⟩
    · split
      · rename_i hne hlt
        refine List.nodup_cons.mpr ⟨?_, List.nodup_cons.mpr ⟨hpmem, hnrest⟩⟩
        intro hx
        rcases List.mem_cons.mp hx with h1 | h1
        · exact hne h1.symm
        · have := hple x h1
          omega
      · rename_i hne hnlt
        refine List.nodup_cons.mpr ⟨?_, ih hsrest hnrest⟩
        intro hp2
        rcases mem_addPrefixEntry hp2 with h1 | h1
        · exact hpmem h1
        · exact hne h1

/-! ## The claims -/

/-- C2: a request whose estimated cost is 0 is forwarded directly to the
wrapped handler by both governor forms — no permit is acquired from
either pool, the overload counter and queue gauge are untouched, and the
overload handler is not invoked — whatever the saturation of the pools
and queue. -/
theorem c2_zero_cost_bypass (maxConcurrency maxBurst cur burstCur concCur : Nat)
    (concWaiters queueGranted hasCounter hasGauge hasObserver : Bool) :
    simpleGovernorServe maxConcurrency cur 0 hasCounter =
      { mainCalls := 1 } ∧
    governorServe maxConcurrency maxBurst burstCur concCur concWaiters
      queueGranted 0 hasCounter hasGauge hasObserver = { mainCalls := 1 } :=
  ⟨rfl, rfl⟩

/-- C4: exact match first, then longest registered prefix, then the
default 1 — with `/free`→0, `/api/`→5, `/api/calls/`→7 registered,
`/api/calls/call1` costs 7, `/api/other` costs 5 and `/nomatch` costs 1,
for any request host. -/
theorem c4_longest_prefix_wins (host : String) :
    estimatorLongest.EstimateCost ⟨host, "/api/calls/call1"⟩ = 7 ∧
    estimatorLongest.EstimateCost ⟨host, "/api/other"⟩ = 5 ∧
    estimatorLongest.EstimateCost ⟨host, "/nomatch"⟩ = 1 :=
  ⟨rfl, rfl, rfl⟩

/-- C5: host-port normalisation strips a trailing `:port` while keeping
the brackets of a bracketed IPv6 literal intact, so host `[::1]:80`
matches a registration keyed on `[::1]` and host `127.0.0.1:80` matches
a registration keyed on `127.0.0.1`. -/
theorem c5_host_port_normalisation :
    stripPort "[::1]:80" = "[::1]" ∧
    stripPort "127.0.0.1:80" = "127.0.0.1" ∧
    stripPort "[::1]" = "[::1]" ∧
    (({} : PatternCostEstimator).SetCost "[::1]" 4).EstimateCost
      ⟨"[::1]:80", "/foo"⟩ = 4 ∧
    (({} : PatternCostEstimator).SetCost "127.0.0.1/bar" 6).EstimateCost
      ⟨"127.0.0.1:80", "/bar"⟩ = 6 :=
  ⟨rfl, rfl, rfl, rfl, rfl⟩

/-- C8: both terminal-reject paths of the two-tier governor — burst
acquire failure, and queue timeout or cancellation — invoke the
overload handler exactly once, increment a configured overload counter
exactly once, never call the wrapped handler, and balance the burst
weight exactly (no release on burst failure, one release of the one
acquired weight on queue timeout); the concurrent weight is never
acquired nor released on either path. -/
theorem c8_terminal_reject (maxConcurrency maxBurst burstCur concCur : Nat)
    (concWaiters queueGranted hasGauge hasObserver : Bool) (cost : Nat)
    (hcost : cost ≠ 0) :
    (¬ burstCur + cost ≤ maxBurst →
      governorServe maxConcurrency maxBurst burstCur concCur concWaiters
        queueGranted cost true hasGauge hasObserver =
      { overloadCalls := 1, overloadIncs := 1 }) ∧
    (burstCur + cost ≤ maxBurst →
      ¬(concWaiters = false ∧ concCur + cost ≤ maxConcurrency) →
      governorServe maxConcurrency maxBurst burstCur concCur concWaiters
        false cost true hasGauge hasObserver =
      { overloadCalls := 1, overloadIncs := 1,
        gaugeIncs := if hasGauge then 1 else 0,
        gaugeDecs := if hasGauge then 1 else 0,
        burstAcquires := 1, burstReleases := 1 }) := by
  constructor
  · intro hb
    simp [governorServe, hcost, hb]
  · intro hb hcf
    simp [governorServe, hcost, hb, hcf]

/-- Witness for C8 at `MaxConcurrency = 1`, `MaxBurst = 2`: a cost-1
request with the burst pool full (held weight 2), and a cost-1 request
passing the burst pool (held weight 0) but finding the concurrent pool
full (held weight 1) and timing out in the queue. -/
theorem c8_terminal_reject_witness :
    governorServe 1 2 2 0 false false 1 true true true =
      { overloadCalls := 1, overloadIncs := 1 } ∧
    governorServe 1 2 0 1 false false 1 true true true =
      { overloadCalls := 1, overloadIncs := 1, gaugeIncs := 1,
        gaugeDecs := 1, burstAcquires := 1, burstReleases := 1 } :=
  ⟨(c8_terminal_reject 1 2 2 0 false false true true 1 (by decide)).1
      (by decide),
   (c8_terminal_reject 1 2 0 1 false false true true 1 (by decide)).2
      (by decide) (by decide)⟩

/-- Every cost that ever enters the in-flight list of a reachable
two-tier state fitted into the concurrent pool when admitted or
granted. -/
theorem govReachable_inflight_le {C B : Nat} {s : GovState}
    (hs : GovReachable C B s) : ∀ c ∈ s.inflight, c ≤ C := by
  induction hs with
  | init => simp
  | step hr hstep ih =>
    cases hstep with
    | arriveAdmit hc hburst hnowait hconc =>
      intro x hx
      rcases List.mem_cons.mp hx with h1 | h1
      · subst h1; omega
      · exact ih x h1
    | arriveQueue hc hburst hfail => exact ih
    | arriveReject hc hburst => exact ih
    | grant hq hconc =>
      intro x hx
      rcases List.mem_cons.mp hx with h1 | h1
      · subst h1; omega
      · exact ih x h1
    | timeout hi => exact ih
    | complete hi =>
      intro x hx
      exact ih x ((List.eraseIdx_sublist ..).subset hx)

/-- C1: in the two-tier form the sum of in-flight costs never exceeds
MaxConcurrency, and the sum of in-flight plus queued costs never
exceeds MaxBurst, in every state reachable under any sequence of
arrivals, queue grants, timeouts and completions. -/
theorem c1_two_tier_invariant (C B : Nat) (_hCB : C < B) (s : GovState)
    (hs : GovReachable C B s) :
    s.inflight.sum ≤ C ∧ s.inflight.sum + s.queued.sum ≤ B := by
  induction hs with
  | init => simp
  | step hr hstep ih =>
    obtain ⟨ih1, ih2⟩ := ih
    cases hstep with
    | arriveAdmit hc hburst hnowait hconc =>
      simp only [List.sum_cons]
      omega
    | arriveQueue hc hburst hfail =>
      simp only [List.sum_append, List.sum_cons, List.sum_nil]
      omega
    | arriveReject hc hburst => exact ⟨ih1, ih2⟩
    | grant hq hconc =>
      have hsum := congrArg List.sum hq
      simp only [List.sum_cons] at hsum
      simp only [List.sum_cons]
      omega
    | timeout hi =>
      exact ⟨ih1, le_trans (Nat.add_le_add_left (sum_eraseIdx_le ..) _) ih2⟩
    | complete hi =>
      exact ⟨le_trans (sum_eraseIdx_le ..) ih1,
        le_trans (Nat.add_le_add_right (sum_eraseIdx_le ..) _) ih2⟩

/-- Witness for C1 at `MaxConcurrency = 1`, `MaxBurst = 2`, evaluated on
the state reached by admitting a cost-1 request and queueing a second
cost-1 request. -/
theorem c1_two_tier_invariant_witness :
    ([1] : List Nat).sum ≤ 1 ∧ ([1] : List Nat).sum + ([1] : List Nat).sum ≤ 2 := by
  have h1 : GovReachable 1 2 ⟨[1], []⟩ :=
    .step .init (.arriveAdmit (by decide) (by decide) rfl (by decide))
  have h2 : GovReachable 1 2 ⟨[1], [1]⟩ :=
    .step h1 (.arriveQueue (by decide) (by decide) (by decide))
  exact c1_two_tier_invariant 1 2 (by decide) ⟨[1], [1]⟩ h2

/-- C9: a request whose positive cost exceeds MaxConcurrency is never
forwarded: the single-tier non-blocking acquire fails even on an idle
pool and the request is rejected as overload; in the two-tier system the
concurrent pool can never grant such a cost from the queue, no reachable
state ever has it in flight, and the request's `ServeHTTP` invocation,
whose blocking acquire therefore times out or is cancelled, rejects it
as overload without calling the wrapped handler. -/
theorem c9_cost_above_concurrency (C B cur burstCur concCur cost : Nat)
    (concWaiters : Bool) (hasCounter hasGauge hasObserver : Bool)
    (hover : C < cost) :
    simpleGovernorServe C cur cost hasCounter =
      { overloadCalls := 1, overloadIncs := if hasCounter then 1 else 0 } ∧
    (∀ s s' : GovState, ¬ GovStep C B s (.grant cost) s') ∧
    (∀ s : GovState, GovReachable C B s → cost ∉ s.inflight) ∧
    (governorServe C B burstCur concCur concWaiters false cost
        hasCounter hasGauge hasObserver).mainCalls = 0 ∧
    (governorServe C B burstCur concCur concWaiters false cost
        hasCounter hasGauge hasObserver).overloadCalls = 1 := by
  have hcost : cost ≠ 0 := by omega
  have hnofit : ¬ cur + cost ≤ C := by omega
  refine ⟨?_, ?_, ?_, ?_, ?_⟩
  · simp [simpleGovernorServe, hcost, hnofit]
  · intro s s' h
    cases h with
    | grant hq hconc => omega
  · intro s hs hmem
    have := govReachable_inflight_le hs cost hmem
    omega
  · have hcfit : ¬ concCur + cost ≤ C := by omega
    by_cases hb : burstCur + cost ≤ B <;>
      simp [governorServe, hcost, hb, hcfit]
  · have hcfit : ¬ concCur + cost ≤ C := by omega
    by_cases hb : burstCur + cost ≤ B <;>
      simp [governorServe, hcost, hb, hcfit]

/-- Witness for C9 at `MaxConcurrency = 1`, `MaxBurst = 2`, cost 2, with
both pools idle. -/
theorem c9_cost_above_concurrency_witness :
    simpleGovernorServe 1 0 2 true = { overloadCalls := 1, overloadIncs := 1 } ∧
    ¬ GovStep 1 2 ⟨[], [2]⟩ (.grant 2) ⟨[2], []⟩ ∧
    2 ∉ (⟨[], []⟩ : GovState).inflight ∧
    (governorServe 1 2 0 0 false false 2 true true true).mainCalls = 0 ∧
    (governorServe 1 2 0 0 false false 2 true true true).overloadCalls = 1 := by
  obtain ⟨h1, h2, h3, h4, h5⟩ :=
    c9_cost_above_concurrency 1 2 0 0 0 2 false true true true (by decide)
  exact ⟨h1, h2 ⟨[], [2]⟩ ⟨[2], []⟩, h3 ⟨[], []⟩ .init, h4, h5⟩

/-- `SetCost` preserves the pattern-table invariant. -/
theorem estimatorInv_SetCost (e : PatternCostEstimator) (p : String)
    (c : Int) (h : EstimatorInv e) : EstimatorInv (e.SetCost p c) := by
  obtain ⟨h1, h2, h3⟩ := h
  simp only [EstimatorInv, PatternCostEstimator.SetCost]
  refine ⟨?_, ?_, ?_⟩
  · split
    · exact pairwise_addPrefixEntry h1
    · exact h1
  · split
    · exact nodup_addPrefixEntry h1 h2
    · exact h2
  · intro q hq
    split at hq
    · rcases mem_addPrefixEntry hq with hmem | hmem
      · exact isSome_findCost_mapInsert (h3 q hmem)
      · subst hmem
        rw [findCost_mapInsert]
        simp
    · exact isSome_findCost_mapInsert (h3 q hq)

/-- A `SetCost` sequence applied to an invariant-satisfying estimator
keeps the invariant. -/
theorem estimatorInv_applyList :
    ∀ (ops : List (String × Int)) (e : PatternCostEstimator),
    EstimatorInv e →
    EstimatorInv (ops.foldl (fun e op => e.SetCost op.1 op.2) e) := by
  intro ops
  induction ops with
  | nil => intro e h; exact h
  | cons op rest ih =>
    intro e h
    simp only [List.foldl_cons]
    exact ih _ (estimatorInv_SetCost e op.1 op.2 h)

/-- C7: after every sequence of `SetCost` calls, the prefix list is
sorted by non-increasing string length, contains no duplicates, and
every entry of it is a key of the exact-match cost map. -/
theorem c7_prefix_list_invariant (ops : List (String × Int)) :
    (applySetCosts ops).prefixes.Pairwise (fun a b => b.length ≤ a.length) ∧
    (applySetCosts ops).prefixes.Nodup ∧
    ∀ p ∈ (applySetCosts ops).prefixes,
      (findCost (applySetCosts ops).costs p).isSome :=
  estimatorInv_applyList ops {} ⟨List.Pairwise.nil, List.nodup_nil, by simp⟩

/-- C6: `SetCost` is last-write-wins — a later registration of a
pattern with the same normalised key overwrites the earlier cost, and
re-registering a prefix pattern does not duplicate it in the prefix
list; registering `/api/`→5 then `/api/`→7 makes `/api/call` cost 7. -/
theorem c6_last_write_wins (e : PatternCostEstimator) (p1 p2 : String)
    (c1 c2 : Int) (host : String)
    (hk : (cleanedPatternKey p1).1 = (cleanedPatternKey p2).1) :
    findCost ((e.SetCost p1 c1).SetCost p2 c2).costs
      (cleanedPatternKey p1).1 = some c2 ∧
    ((({} : PatternCostEstimator).SetCost "/api/" 5).SetCost "/api/" 7).EstimateCost
      ⟨host, "/api/call"⟩ = 7 ∧
    ((({} : PatternCostEstimator).SetCost "/api/" 5).SetCost "/api/" 7).prefixes =
      ["/api/"] := by
  refine ⟨?_, rfl, rfl⟩
  rw [hk]
  simp only [PatternCostEstimator.SetCost]
  rw [findCost_mapInsert]
  simp

/-- Witness for C6: the same pattern `/api/` registered twice. -/
theorem c6_last_write_wins_witness :
    findCost ((({} : PatternCostEstimator).SetCost "/api/" 5).SetCost
      "/api/" 7).costs (cleanedPatternKey "/api/").1 = some 7 ∧
    ((({} : PatternCostEstimator).SetCost "/api/" 5).SetCost "/api/" 7).EstimateCost
      ⟨"h", "/api/call"⟩ = 7 ∧
    ((({} : PatternCostEstimator).SetCost "/api/" 5).SetCost "/api/" 7).prefixes =
      ["/api/"] :=
  c6_last_write_wins {} "/api/" "/api/" 5 7 "h" rfl

/-- C3: with a host-carrying table, `EstimateCost` falls back from the
host-qualified candidate to the path-only candidate exactly when the
host-qualified attempt produces no match at all (the returned `ok` is
false) — the fallback is whole-attempt; concretely a host-qualified miss
combined with a path-only exact match returns the path-only cost. -/
theorem c3_host_fallback_whole_attempt (c : PatternCostEstimator)
    (req : Request) (hh : c.hasHost = true) :
    (∀ cost : Int,
      c.matchCost (stripPort req.host ++ pathClean req.urlPath) = (cost, true) →
      c.EstimateCost req = cost) ∧
    ((c.matchCost (stripPort req.host ++ pathClean req.urlPath)).2 = false →
      c.EstimateCost req = (c.matchCost (pathClean req.urlPath)).1) ∧
    (estimatorHostExact.matchCost (stripPort "other" ++ pathClean "/x")).2
      = false ∧
    findCost estimatorHostExact.costs "/x" = some 3 ∧
    estimatorHostExact.EstimateCost ⟨"other", "/x"⟩ = 3 := by
  refine ⟨?_, ?_, rfl, rfl, rfl⟩
  · intro cost hm
    simp [PatternCostEstimator.EstimateCost, hh, hm]
  · intro hf
    simp [PatternCostEstimator.EstimateCost, hh, hf]

/-- Witness for C3: the host-qualified attempt for host `other`, path
`/x` misses entirely, so the path-only result is returned. -/
theorem c3_host_fallback_whole_attempt_witness :
    estimatorHostExact.EstimateCost ⟨"other", "/x"⟩ =
      (estimatorHostExact.matchCost (pathClean "/x")).1 :=
  (c3_host_fallback_whole_attempt estimatorHostExact ⟨"other", "/x"⟩ rfl).2.1 rfl

/-- A rooted path stays rooted through `pathClean`. -/
theorem pathClean_rooted (p : String) (l : List Char)
    (h : p.data = '/' :: l) : ∃ r, (pathClean p).data = '/' :: r := by
  simp only [pathClean, h]
  exact ⟨_, rfl⟩

/-- Matching against a table holding the single subtree entry `k`
returns its cost for every candidate that starts with `k`. -/
theorem matchCost_singleton_sub (k : String) (v : Int) (q : String)
    (hq : hasPrefixStr q k = true) :
    PatternCostEstimator.matchCost ⟨[(k, v)], [k], true⟩ q = (v, true) := by
  unfold PatternCostEstimator.matchCost
  by_cases hex : k = q
  · simp [findCost, hex]
  · simp [findCost, hex, scanPrefixCosts, hq]

/-- C10: a pattern containing no `'/'` at all is accepted by `SetCost`:
the whole pattern becomes the host, the path defaults to `/`, the
registered key is `pattern ++ "/"` added to the prefix list as a
subtree entry — so a host-only pattern matches every request addressed
to that host at any (rooted) path. -/
theorem c10_hostonly_pattern (e : PatternCostEstimator) (pat : String)
    (cost : Int) (t : String) (hs : indexOfSlash pat.data = none) :
    (e.SetCost pat cost).costs = mapInsert e.costs (pat ++ "/") cost ∧
    (e.SetCost pat cost).prefixes = addPrefixEntry e.prefixes (pat ++ "/") ∧
    (e.SetCost pat cost).hasHost = (if pat = "" then e.hasHost else true) ∧
    (({} : PatternCostEstimator).SetCost "example.com" 5).EstimateCost
      ⟨"example.com", "/" ++ t⟩ = 5 := by
  have hsp : splitHostPath pat = (pat, "/") := by
    simp [splitHostPath, hs]
  have hone : hasSuffixStr "/" "/" = true := rfl
  have hclean : pathClean "/" = "/" := rfl
  have hkp : cleanedPatternKey pat = (pat ++ "/", true) := by
    simp [cleanedPatternKey, hsp, hone, hclean]
  refine ⟨?_, ?_, ?_, ?_⟩
  · simp [PatternCostEstimator.SetCost, hkp]
  · simp [PatternCostEstimator.SetCost, hkp]
  · simp [PatternCostEstimator.SetCost, hsp]
  · have hdata : ("/" ++ t : String).data = '/' :: t.data := by
      rw [String.data_append]
      rfl
    obtain ⟨r, hr⟩ := pathClean_rooted _ t.data hdata
    have hcand : ("example.com" ++ pathClean ("/" ++ t)).data =
        "example.com/".data ++ r := by
      rw [String.data_append, hr, List.append_cons]
      rfl
    have hpre : hasPrefixStr ("example.com" ++ pathClean ("/" ++ t))
        "example.com/" = true := by
      unfold hasPrefixStr
      rw [hcand]
      exact isPreOf_append _ _
    have hlit : ({} : PatternCostEstimator).SetCost "example.com" 5 =
        ⟨[("example.com/", 5)], ["example.com/"], true⟩ := rfl
    have hm := matchCost_singleton_sub "example.com/" 5
      ("example.com" ++ pathClean ("/" ++ t)) hpre
    have hstrip : stripPort "example.com" = "example.com" := rfl
    rw [hlit]
    simp [PatternCostEstimator.EstimateCost, hstrip, hm]

/-- Witness for C10: the host-only pattern `example.com` registered on
the empty estimator, matched at path `/foo`. -/
theorem c10_hostonly_pattern_witness :
    (({} : PatternCostEstimator).SetCost "example.com" 5).costs =
      mapInsert ({} : PatternCostEstimator).costs ("example.com" ++ "/") 5 ∧
    (({} : PatternCostEstimator).SetCost "example.com" 5).prefixes =
      addPrefixEntry ({} : PatternCostEstimator).prefixes ("example.com" ++ "/") ∧
    (({} : PatternCostEstimator).SetCost "example.com" 5).hasHost =
      (if "example.com" = "" then ({} : PatternCostEstimator).hasHost else true) ∧
    (({} : PatternCostEstimator).SetCost "example.com" 5).EstimateCost
      ⟨"example.com", "/" ++ "foo"⟩ = 5 :=
  c10_hostonly_pattern {} "example.com" 5 "foo" (by decide)

end Httpgovernor
